import Mathlib

/-!
Verification of the BLS wrapper (`shared/bls/blst`, file `bls.go` of the excerpt)
against its specification.

Modelling conventions:
* `[]byte` is `List Nat`; `[32]byte` messages are byte lists as well (only their
  decidable equality is used by the code under study).
* The pairing groups are modelled generically: a point is a formal sum of
  generators (a `Multiset`), so group addition (`Aggregate`) is multiset sum and
  point equality (`Equals`) is multiset equality.  `blst.HashToG2` sends a byte
  string to the generator labelled with it; decoded signature points are opaque
  generators.  This is the usual generic-group reading of the algebra the
  wrapper performs; it keeps every comparison and aggregation the source does.
* The external `blst` pairing checks (`Verify`, `AggregateVerify`,
  `MultipleAggregateVerify`, signature uncompression) are not part of the
  repository; each wrapper takes them as an explicit function argument, so the
  theorems hold for every behaviour of the primitive (randomness included).
* `featureconfig.Get().SkipBLSVerify` is the explicit boolean argument
  `skipBLSVerify` of every function that reads it.
-/

/-- Go `[]byte`, as a list of byte values. -/
abbrev Bytes := List Nat

/-- Go `[32]byte` message roots, as byte lists (only equality is used). -/
abbrev Msg := List Nat

/-- A `*blstPublicKey` (G1 point) in the generic-group model: a formal sum of
G1 generators.  `Aggregate` is `+`, `Equals` is decidable equality. -/
abbrev blstPublicKey := Multiset Nat

/-- Generators of G2: `Sum.inl b` is the hash-to-curve point of byte string `b`
(under the fixed process-wide DST), `Sum.inr n` is an opaque decoded signature
point. -/
abbrev G2Gen := Sum Bytes Nat

/-- A `*blstSignature` (G2 point) in the generic-group model. -/
abbrev blstSignature := Multiset G2Gen

/-- `blst.HashToG2(msg, dst)` followed by `ToAffine()` (the latter is a change
of coordinates, algebraically the identity): the G2 generator labelled `msg`. -/
def hashToG2 (msg : Bytes) : blstSignature := {Sum.inl msg}

/-- `params.BeaconConfig().BLSSignatureLength`. -/
def blsSignatureLength : Nat := 96

/-- The Go `Signature` struct: it wraps a nullable `*blstSignature`
(`&Signature{}` has a nil inner pointer, modelled by `none`). -/
structure Signature where
  s : Option blstSignature
deriving DecidableEq

/-- The two failure kinds of `SignatureFromBytes`: the wrong-length error
(`"signature must be %d bytes"`) and the invalid-point error
(`"could not unmarshal bytes into signature"`). -/
inductive DecodeError
  | wrongLength
  | invalidPoint
deriving DecidableEq

/-- `SignatureFromBytes`: length check, then `blstSignature.Uncompress` (the
external decoder, passed in as `uncompress`; `none` models a nil result). -/
def SignatureFromBytes (skipBLSVerify : Bool)
    (uncompress : Bytes → Option blstSignature) (sig : Bytes) :
    Except DecodeError Signature :=
  if skipBLSVerify then .ok ⟨none⟩
  else if sig.length ≠ blsSignatureLength then .error .wrongLength
  else
    match uncompress sig with
    | none => .error .invalidPoint
    | some p => .ok ⟨some p⟩

/-- `(*Signature).Verify`: flag check, then the external single pairing check
`s.s.Verify(pubKey.p, msg, dst)` (passed in as `blstVerify`). -/
def Verify (skipBLSVerify : Bool)
    (blstVerify : blstSignature → blstPublicKey → Bytes → Bool)
    (s : blstSignature) (pubKey : blstPublicKey) (msg : Bytes) : Bool :=
  if skipBLSVerify then true else blstVerify s pubKey msg

/-- `(*Signature).AggregateVerify`: flag check, the two structural guards on
`len(pubKeys)`, then the external `s.s.AggregateVerify(rawKeys, msgSlices, dst)`
(passed in as `blstAggregateVerify`; building `rawKeys`/`msgSlices` is the
identity here). -/
def AggregateVerify (skipBLSVerify : Bool)
    (blstAggregateVerify : blstSignature → List blstPublicKey → List Msg → Bool)
    (s : blstSignature) (pubKeys : List blstPublicKey) (msgs : List Msg) : Bool :=
  if skipBLSVerify then true
  else if pubKeys.length = 0 then false
  else if pubKeys.length ≠ msgs.length then false
  else blstAggregateVerify s pubKeys msgs

/-- `iface.PublicKey.Aggregate` folded over a list of keys: group sum in G1. -/
def aggregatePublicKeys (pubKeys : List blstPublicKey) : blstPublicKey :=
  pubKeys.sum

/-- Modelled from the spec: the external primitive
`blstSignature.FastAggregateVerify(rawKeys, msg, dst)` is not repository code;
per the IETF definition quoted in the source comment ("a verification algorithm
for the aggregate of multiple signatures on the same message") it verifies the
shared message against the aggregate of the public keys. -/
def blstFastAggregateVerify
    (blstVerify : blstSignature → blstPublicKey → Bytes → Bool)
    (s : blstSignature) (pubKeys : List blstPublicKey) (msg : Msg) : Bool :=
  blstVerify s (aggregatePublicKeys pubKeys) msg

/-- `(*Signature).FastAggregateVerify`: flag check, empty-key guard, then the
external fast aggregate check. -/
def FastAggregateVerify (skipBLSVerify : Bool)
    (blstVerify : blstSignature → blstPublicKey → Bytes → Bool)
    (s : blstSignature) (pubKeys : List blstPublicKey) (msg : Msg) : Bool :=
  if skipBLSVerify then true
  else if pubKeys.length = 0 then false
  else blstFastAggregateVerify blstVerify s pubKeys msg

/-- `NewAggregateSignature`: "creates a blank aggregate signature" — it returns
`blst.HashToG2([]byte{'m','o','c','k'}, dst).ToAffine()`, the hash point of the
byte string "mock" (`[109,111,99,107]`). -/
def NewAggregateSignature : blstSignature :=
  hashToG2 [109, 111, 99, 107]

/-- `AggregateSignatures`: nil (`none`) on an empty list, the first signature
under the bypass flag, otherwise the group sum of all the signatures
(`blstAggregateSignature.Aggregate` is addition in G2, which in this model
never fails). -/
def AggregateSignatures (skipBLSVerify : Bool) (sigs : List blstSignature) :
    Option blstSignature :=
  match sigs with
  | [] => none
  | s0 :: rest =>
    if skipBLSVerify then some s0
    else some ((s0 :: rest).sum)

/-- The two structural errors `VerifyMultipleSignatures` can return: the
length-mismatch `errors.Errorf("provided signatures, pubkeys and messages have
differing lengths...")` and `removeDuplicates`'s `errors.New("invalid signature
and pubkey pair provided")`. -/
inductive BlsError
  | lengthMismatch
  | conflictingDuplicate
deriving DecidableEq

/-- Zips three parallel slices into the triples the loops of
`removeDuplicates` / `VerifyMultipleSignatures` read at each index `i`. -/
def zip3 {α β γ : Type} : List α → List β → List γ → List (α × β × γ)
  | a :: ta, b :: tb, c :: tc => (a, b, c) :: zip3 ta tb tc
  | _, _, _ => []

/-- First-match lookup in an association list; this is the Go map `msgMap`
(each key is inserted at most once, so first-match agrees with map semantics). -/
def msgLookup : List (Msg × Nat) → Msg → Option Nat
  | [], _ => none
  | (k, v) :: rest, m => if k = m then some v else msgLookup rest m

/-- The accumulator of `removeDuplicates`: the `newSigs`/`newMsgs`/`newPubKeys`
slices and the `msgMap` from a message to the index at which its first
occurrence was appended. -/
structure DedupState where
  newSigs : List Bytes
  newMsgs : List Msg
  newPubKeys : List blstPublicKey
  msgMap : List (Msg × Nat)
deriving DecidableEq

/-- One iteration of the loop body of `removeDuplicates` on entry
`(sigs[i], msgs[i], pubKeys[i])`. -/
def dedupStep (st : DedupState) (sig : Bytes) (msg : Msg) (pk : blstPublicKey) :
    Except BlsError DedupState :=
  match msgLookup st.msgMap msg with
  | some indx =>
    let pubkeyEqual := decide (st.newPubKeys.getD indx 0 = pk)
    let signatureEqual := decide (st.newSigs.getD indx [] = sig)
    if (pubkeyEqual && !signatureEqual) || (!pubkeyEqual && signatureEqual) then
      .error .conflictingDuplicate
    else if pubkeyEqual && signatureEqual then
      .ok st
    else
      .ok { st with
            newSigs := st.newSigs ++ [sig]
            newMsgs := st.newMsgs ++ [msg]
            newPubKeys := st.newPubKeys ++ [pk] }
  | none =>
    .ok { newSigs := st.newSigs ++ [sig]
          newMsgs := st.newMsgs ++ [msg]
          newPubKeys := st.newPubKeys ++ [pk]
          msgMap := st.msgMap ++ [(msg, st.newPubKeys.length)] }

/-- The loop of `removeDuplicates`, threading the accumulator left to right and
propagating the conflicting-duplicate error. -/
def dedupRun (st : DedupState) : List (Bytes × Msg × blstPublicKey) →
    Except BlsError DedupState
  | [] => .ok st
  | (sig, msg, pk) :: rest =>
    match dedupStep st sig msg pk with
    | .error e => .error e
    | .ok st2 => dedupRun st2 rest

/-- `removeDuplicates(sigs, msgs, pubKeys)`. -/
def removeDuplicates (sigs : List Bytes) (msgs : List Msg)
    (pubKeys : List blstPublicKey) :
    Except BlsError (List Bytes × List Msg × List blstPublicKey) :=
  match dedupRun ⟨[], [], [], []⟩ (zip3 sigs msgs pubKeys) with
  | .error e => .error e
  | .ok st => .ok (st.newSigs, st.newMsgs, st.newPubKeys)

/-- The accumulator of the coalescing loop of `VerifyMultipleSignatures`:
the `mulP1Aff`/`mulP2Aff`/`rawMsgs` slices and its `msgMap`. -/
structure CoalesceState where
  mulP1Aff : List blstPublicKey
  mulP2Aff : List blstSignature
  rawMsgs : List Msg
  msgMap : List (Msg × Nat)
deriving DecidableEq

/-- One iteration of the coalescing loop of `VerifyMultipleSignatures` on entry
`(rawSigs[i], msgs[i], pubKeys[i])`: a repeated message either leaves the state
unchanged (both slot components equal) or is aggregated into the slot;
a fresh message appends a new pairing term and registers it in `msgMap`. -/
def coalesceStep (st : CoalesceState) (rawSig : blstSignature) (msg : Msg)
    (pk : blstPublicKey) : CoalesceState :=
  match msgLookup st.msgMap msg with
  | some indx =>
    let slotP := st.mulP1Aff.getD indx 0
    let slotS := st.mulP2Aff.getD indx 0
    if slotP = pk ∧ slotS = rawSig then st
    else
      { st with
        mulP1Aff := st.mulP1Aff.set indx (slotP + pk)
        mulP2Aff := st.mulP2Aff.set indx (slotS + rawSig) }
  | none =>
    { mulP1Aff := st.mulP1Aff ++ [pk]
      mulP2Aff := st.mulP2Aff ++ [rawSig]
      rawMsgs := st.rawMsgs ++ [msg]
      msgMap := st.msgMap ++ [(msg, st.mulP1Aff.length)] }

/-- The coalescing loop of `VerifyMultipleSignatures`. -/
def coalesceRun (st : CoalesceState) :
    List (blstSignature × Msg × blstPublicKey) → CoalesceState
  | [] => st
  | (s, m, p) :: rest => coalesceRun (coalesceStep st s m p) rest

/-- The part of `VerifyMultipleSignatures` between the length guards and the
final call: `removeDuplicates`, then `rawSigs := BatchUncompress(sigs)` — the
external decoder, passed in as `batchUncompress`, a function of the whole
slice: on success it returns one decoded point per signature, on failure the
nil slice `[]` (the source never checks which, it just recomputes
`length = len(rawSigs)` and loops up to it, which is the `zip3` below) — and
the coalescing loop.  Returns the state whose `mulP2Aff`/`mulP1Aff`/`rawMsgs`
are handed to `MultipleAggregateVerify`. -/
def coalescedInput (batchUncompress : List Bytes → List blstSignature)
    (sigs : List Bytes) (msgs : List Msg) (pubKeys : List blstPublicKey) :
    Except BlsError CoalesceState :=
  match removeDuplicates sigs msgs pubKeys with
  | .error e => .error e
  | .ok (sigs2, msgs2, pubKeys2) =>
    .ok (coalesceRun ⟨[], [], [], []⟩
      (zip3 (batchUncompress sigs2) msgs2 pubKeys2))

/-- `VerifyMultipleSignatures(sigs, msgs, pubKeys)`.  The external randomized
multi-pairing check `MultipleAggregateVerify(mulP2Aff, mulP1Aff, rawMsgs, dst,
randFunc, 64)` is passed in as `multiAggVerify` (any draw of the random
coefficients is one such function). -/
def VerifyMultipleSignatures (skipBLSVerify : Bool)
    (batchUncompress : List Bytes → List blstSignature)
    (multiAggVerify : List blstSignature → List blstPublicKey → List Msg → Bool)
    (sigs : List Bytes) (msgs : List Msg) (pubKeys : List blstPublicKey) :
    Bool × Option BlsError :=
  if skipBLSVerify then (true, none)
  else if sigs.length = 0 ∨ pubKeys.length = 0 then (false, none)
  else if sigs.length ≠ pubKeys.length ∨ sigs.length ≠ msgs.length then
    (false, some .lengthMismatch)
  else
    match coalescedInput batchUncompress sigs msgs pubKeys with
    | .error e => (false, some e)
    | .ok st => (multiAggVerify st.mulP2Aff st.mulP1Aff st.rawMsgs, none)

/-- A concrete uncompression function for witnesses: bytes decode to the opaque
G2 generator named by their first byte (injective on the fixtures used). -/
def uAtom : Bytes → blstSignature := fun b => {Sum.inr (b.headD 0)}

/-- A concrete, succeeding batch decoder for witnesses: one point per
signature, as `BatchUncompress` returns on success. -/
def buAtom : List Bytes → List blstSignature := fun bs => bs.map uAtom

/-- The failing batch decoder: `BatchUncompress` returns the nil slice when
any signature of the batch does not decode (e.g. a one-byte slice is no valid
compressed G2 point). -/
def buNil : List Bytes → List blstSignature := fun _ => []

/-- A concrete multi-pairing check for witnesses that accepts everything. -/
def mavTrue : List blstSignature → List blstPublicKey → List Msg → Bool :=
  fun _ _ _ => true

/-- A concrete single pairing check for witnesses that accepts everything. -/
def bvTrue : blstSignature → blstPublicKey → Bytes → Bool := fun _ _ _ => true

/-- A concrete aggregate pairing check for witnesses that accepts everything. -/
def avTrue : blstSignature → List blstPublicKey → List Msg → Bool :=
  fun _ _ _ => true

instance {ε α : Type} [DecidableEq ε] [DecidableEq α] : DecidableEq (Except ε α) :=
  fun x y =>
  match x, y with
  | .error e, .error f =>
    if h : e = f then isTrue (by rw [h]) else isFalse (fun hh => h (Except.error.inj hh))
  | .error _, .ok _ => isFalse (fun hh => Except.noConfusion hh)
  | .ok _, .error _ => isFalse (fun hh => Except.noConfusion hh)
  | .ok a, .ok b =>
    if h : a = b then isTrue (by rw [h]) else isFalse (fun hh => h (Except.ok.inj hh))

/-! ## Helper lemmas about the structural error paths -/

theorem dedupStep_error_eq {st : DedupState} {sig : Bytes} {msg : Msg}
    {pk : blstPublicKey} {e : BlsError}
    (h : dedupStep st sig msg pk = .error e) : e = .conflictingDuplicate := by
  simp only [dedupStep] at h
  split at h
  · split at h
    · exact (Except.error.inj h).symm
    · split at h <;> exact Except.noConfusion h
  · exact Except.noConfusion h

theorem dedupRun_error_eq {l : List (Bytes × Msg × blstPublicKey)}
    {st : DedupState} {e : BlsError}
    (h : dedupRun st l = .error e) : e = .conflictingDuplicate := by
  induction l generalizing st with
  | nil => exact Except.noConfusion h
  | cons hd tl ih =>
    obtain ⟨sig, msg, pk⟩ := hd
    simp only [dedupRun] at h
    cases hs : dedupStep st sig msg pk with
    | error e2 =>
      rw [hs] at h
      exact (Except.error.inj h) ▸ dedupStep_error_eq hs
    | ok st2 =>
      rw [hs] at h
      exact ih h

theorem removeDuplicates_error_eq {sigs : List Bytes} {msgs : List Msg}
    {pubKeys : List blstPublicKey} {e : BlsError}
    (h : removeDuplicates sigs msgs pubKeys = .error e) :
    e = .conflictingDuplicate := by
  simp only [removeDuplicates] at h
  cases hr : dedupRun ⟨[], [], [], []⟩ (zip3 sigs msgs pubKeys) with
  | error e2 =>
    rw [hr] at h
    exact (Except.error.inj h) ▸ dedupRun_error_eq hr
  | ok st =>
    rw [hr] at h
    exact Except.noConfusion h

theorem coalescedInput_error {u : List Bytes → List blstSignature} {sigs : List Bytes}
    {msgs : List Msg} {pubKeys : List blstPublicKey} {e : BlsError}
    (h : coalescedInput u sigs msgs pubKeys = .error e) :
    removeDuplicates sigs msgs pubKeys = .error e := by
  unfold coalescedInput at h
  cases hr : removeDuplicates sigs msgs pubKeys with
  | error e2 =>
    rw [hr] at h
    simp only [] at h
    exact congrArg Except.error (Except.error.inj h)
  | ok tr =>
    obtain ⟨a, b, c⟩ := tr
    rw [hr] at h
    simp only [] at h
    exact Except.noConfusion h

/-! ## Claim theorems (easy group) -/

/-- C8: `AggregateSignatures` applied to an empty sequence yields the sentinel
"no result" value `nil` (`none`), for either state of the bypass flag; its
return type has no error channel, so no error can be raised. -/
theorem aggregateSignatures_empty_none (skipBLSVerify : Bool) :
    AggregateSignatures skipBLSVerify [] = none := rfl

/-- C10: with `SkipBLSVerify` set, `Verify`, `AggregateVerify` and
`FastAggregateVerify` return `true` and `VerifyMultipleSignatures` returns
`(true, no error)` on every input whatsoever — empty and length-mismatched
sequences included — bypassing all documented structural checks. -/
theorem skipBLSVerify_bypasses_verification
    (blstVerify : blstSignature → blstPublicKey → Bytes → Bool)
    (blstAggregateVerify : blstSignature → List blstPublicKey → List Msg → Bool)
    (uncompress : List Bytes → List blstSignature)
    (multiAggVerify : List blstSignature → List blstPublicKey → List Msg → Bool)
    (s : blstSignature) (pk : blstPublicKey) (bmsg : Bytes)
    (pubKeys : List blstPublicKey) (msgs : List Msg) (m : Msg)
    (sigs2 : List Bytes) (msgs2 : List Msg) (pubKeys2 : List blstPublicKey) :
    Verify true blstVerify s pk bmsg = true ∧
    AggregateVerify true blstAggregateVerify s pubKeys msgs = true ∧
    FastAggregateVerify true blstVerify s pubKeys m = true ∧
    VerifyMultipleSignatures true uncompress multiAggVerify sigs2 msgs2 pubKeys2 =
      (true, none) :=
  ⟨rfl, rfl, rfl, rfl⟩

/-- C3 counterexample: aggregating the value returned by
`NewAggregateSignature` with the zero point of G2 does not give that point
back, so the returned value is not the group identity and the algebraic law
`AggregateSignatures([]) ⊕ x == x` fails at `x = 0`. -/
theorem newAggregateSignature_not_identity :
    AggregateSignatures false [NewAggregateSignature, 0] ≠ some 0 := by decide

/-- C3 (amended): `NewAggregateSignature` returns the fixed hash point
`HashToG2("mock")` rather than the group identity; aggregating it with any
signature `x` yields `HashToG2("mock") ⊕ x`, which differs from `x` for every
`x`, so the identity law fails everywhere. -/
theorem newAggregateSignature_mock_point (x : blstSignature) :
    NewAggregateSignature = hashToG2 [109, 111, 99, 107] ∧
    AggregateSignatures false [NewAggregateSignature, x] =
      some (hashToG2 [109, 111, 99, 107] + x) ∧
    AggregateSignatures false [NewAggregateSignature, x] ≠ some x := by
  refine ⟨rfl, by simp [AggregateSignatures, NewAggregateSignature], ?_⟩
  intro h
  have h2 : hashToG2 [109, 111, 99, 107] + x = x := by
    simpa [AggregateSignatures, NewAggregateSignature] using h
  have h3 := congrArg Multiset.card h2
  simp [hashToG2] at h3

/-- C6: `AggregateVerify` (with the bypass flag unset) returns `false` — via
its only channel, the boolean result; the function has no error return —
whenever the key sequence is empty, the message sequence is empty, or the two
have different lengths. -/
theorem aggregateVerify_structural_false
    (blstAggregateVerify : blstSignature → List blstPublicKey → List Msg → Bool)
    (s : blstSignature) (pubKeys : List blstPublicKey) (msgs : List Msg)
    (h : pubKeys = [] ∨ msgs = [] ∨ pubKeys.length ≠ msgs.length) :
    AggregateVerify false blstAggregateVerify s pubKeys msgs = false := by
  rcases h with h | h | h
  · simp [AggregateVerify, h]
  · subst h
    by_cases hp : pubKeys.length = 0 <;> simp [AggregateVerify, hp]
  · by_cases hp : pubKeys.length = 0 <;> simp [AggregateVerify, hp, h]

theorem aggregateVerify_structural_false_witness :
    AggregateVerify false avTrue 0 [] [] = false :=
  aggregateVerify_structural_false avTrue 0 [] [] (Or.inl rfl)

/-- C7: `FastAggregateVerify` (bypass flag unset) returns `false` on an empty
key sequence, and on a non-empty one it equals aggregating all public keys
into one key and running the single-message `Verify` against that aggregate
key. -/
theorem fastAggregateVerify_aggregates_keys
    (blstVerify : blstSignature → blstPublicKey → Bytes → Bool)
    (s : blstSignature) (pubKeys : List blstPublicKey) (msg : Msg) :
    (pubKeys = [] → FastAggregateVerify false blstVerify s pubKeys msg = false) ∧
    (pubKeys ≠ [] → FastAggregateVerify false blstVerify s pubKeys msg =
      Verify false blstVerify s (aggregatePublicKeys pubKeys) msg) := by
  constructor
  · intro h
    simp [FastAggregateVerify, h]
  · intro h
    have hp : ¬pubKeys.length = 0 := fun hh => h (List.length_eq_zero.mp hh)
    simp [FastAggregateVerify, Verify, blstFastAggregateVerify, hp]

/-- C9: `SignatureFromBytes` (bypass flag unset) fails with the wrong-length
error on every byte slice whose length is not the 96-byte signature length,
fails with the distinct invalid-point error on every correct-length slice the
decoder rejects, and produces a `Signature` only when the decoder accepted the
bytes — so malformed bytes never produce a live instance. -/
theorem signatureFromBytes_decode_errors
    (uncompress : Bytes → Option blstSignature) (bs : Bytes) :
    (bs.length ≠ blsSignatureLength →
      SignatureFromBytes false uncompress bs = .error .wrongLength) ∧
    (bs.length = blsSignatureLength → uncompress bs = none →
      SignatureFromBytes false uncompress bs = .error .invalidPoint) ∧
    DecodeError.wrongLength ≠ DecodeError.invalidPoint ∧
    (∀ sg : Signature, SignatureFromBytes false uncompress bs = .ok sg →
      bs.length = blsSignatureLength ∧
      ∃ p, uncompress bs = some p ∧ sg = ⟨some p⟩) := by
  refine ⟨fun h => by simp [SignatureFromBytes, h],
    fun h1 h2 => by simp [SignatureFromBytes, h1, h2], by decide, ?_⟩
  intro sg h
  obtain ⟨sgs⟩ := sg
  by_cases h1 : bs.length = blsSignatureLength
  · cases h2 : uncompress bs with
    | none => simp [SignatureFromBytes, h1, h2] at h
    | some p =>
      simp [SignatureFromBytes, h1, h2] at h
      exact ⟨h1, p, rfl, by simp [h]⟩
  · simp [SignatureFromBytes, h1] at h

/-- C1: with the bypass flag unset, `VerifyMultipleSignatures` returns
`(false, no error)` when the signature or public-key sequence is empty;
otherwise `(false, LengthMismatchError)` when the three sequences do not all
have equal length; and its error component never depends on the cryptographic
check — a non-`none` error arises only from these structural problems (the
length mismatch, or the conflicting-duplicate rejection of
`removeDuplicates`), never from invalid signatures. -/
theorem verifyMultipleSignatures_structural_errors
    (u : List Bytes → List blstSignature)
    (f : List blstSignature → List blstPublicKey → List Msg → Bool)
    (sigs : List Bytes) (msgs : List Msg) (pubKeys : List blstPublicKey) :
    ((sigs = [] ∨ pubKeys = []) →
      VerifyMultipleSignatures false u f sigs msgs pubKeys = (false, none)) ∧
    (sigs ≠ [] → pubKeys ≠ [] →
      (sigs.length ≠ pubKeys.length ∨ sigs.length ≠ msgs.length) →
      VerifyMultipleSignatures false u f sigs msgs pubKeys =
        (false, some .lengthMismatch)) ∧
    (∀ g, (VerifyMultipleSignatures false u f sigs msgs pubKeys).2 =
          (VerifyMultipleSignatures false u g sigs msgs pubKeys).2) ∧
    ((VerifyMultipleSignatures false u f sigs msgs pubKeys).2 ≠ none →
      ((sigs.length ≠ pubKeys.length ∨ sigs.length ≠ msgs.length) ∧
        (VerifyMultipleSignatures false u f sigs msgs pubKeys).2 =
          some .lengthMismatch) ∨
      (removeDuplicates sigs msgs pubKeys = .error .conflictingDuplicate ∧
        (VerifyMultipleSignatures false u f sigs msgs pubKeys).2 =
          some .conflictingDuplicate)) := by
  refine ⟨?_, ?_, ?_, ?_⟩
  · intro h
    rcases h with h | h <;> simp [VerifyMultipleSignatures, h]
  · intro hs hp hlen
    simp [VerifyMultipleSignatures, hs, hp, hlen]
  · intro g
    by_cases h0 : sigs = [] ∨ pubKeys = []
    · rcases h0 with h | h <;> simp [VerifyMultipleSignatures, h]
    by_cases h1 : sigs.length ≠ pubKeys.length ∨ sigs.length ≠ msgs.length
    · simp [VerifyMultipleSignatures, h0, h1]
    · cases hc : coalescedInput u sigs msgs pubKeys with
      | error e => simp [VerifyMultipleSignatures, h0, h1, hc]
      | ok st => simp [VerifyMultipleSignatures, h0, h1, hc]
  · intro hne
    by_cases h0 : sigs = [] ∨ pubKeys = []
    · refine absurd ?_ hne
      rcases h0 with h | h <;> simp [VerifyMultipleSignatures, h]
    by_cases h1 : sigs.length ≠ pubKeys.length ∨ sigs.length ≠ msgs.length
    · exact Or.inl ⟨h1, by simp [VerifyMultipleSignatures, h0, h1]⟩
    · cases hc : coalescedInput u sigs msgs pubKeys with
      | error e =>
        have he : e = .conflictingDuplicate :=
          removeDuplicates_error_eq (coalescedInput_error hc)
        subst he
        exact Or.inr ⟨coalescedInput_error hc,
          by simp [VerifyMultipleSignatures, h0, h1, hc]⟩
      | ok st =>
        exact absurd (by simp [VerifyMultipleSignatures, h0, h1, hc]) hne

/-- C2 counterexample: the batch ((m,k1,s1), (m,k2,s2), (m,k2,s3)) contains
two entries for the same message m — the second and the third — where the
third entry's public key matches the already-seen second entry's but the
signatures differ; yet the batch is not rejected: with an accepting pairing
check the call returns `(true, none)` instead of
`(false, ConflictingDuplicateError)`, because the dedup pass only compares
against the first entry recorded for m. -/
theorem conflicting_duplicate_with_second_entry_missed :
    VerifyMultipleSignatures false buAtom mavTrue
      [[1], [2], [3]] [[0], [0], [0]] [{1}, {2}, {2}] = (true, none) := by decide

/-- C5 counterexample: in the batch ((m,k1,s1), (m,k2,s2), (m,k2,s2)) the
third entry's public key and signature both match the already-seen second
entry, yet `removeDuplicates` does not drop it (all three entries survive),
and the coalesced pairing input of this batch differs from that of the batch
with the duplicated triple submitted once — the repeat is aggregated into the
slot, not dropped. -/
theorem duplicate_of_second_entry_not_dropped :
    removeDuplicates [[1], [2], [2]] [[0], [0], [0]] [{1}, {2}, {2}] =
      .ok ([[1], [2], [2]], [[0], [0], [0]], [{1}, {2}, {2}]) ∧
    coalescedInput buAtom [[1], [2], [2]] [[0], [0], [0]] [{1}, {2}, {2}] ≠
      coalescedInput buAtom [[1], [2]] [[0], [0]] [{1}, {2}] :=
  ⟨by decide, by decide⟩

/-! ## Lemmas about `msgLookup` and the dedup loop state -/

theorem msgLookup_append_some {map1 : List (Msg × Nat)} {m : Msg} {v : Nat}
    (map2 : List (Msg × Nat)) (h : msgLookup map1 m = some v) :
    msgLookup (map1 ++ map2) m = some v := by
  induction map1 with
  | nil => exact Option.noConfusion h
  | cons hd tl ih =>
    obtain ⟨k, w⟩ := hd
    simp only [msgLookup, List.cons_append] at h ⊢
    by_cases hk : k = m
    · simpa [hk] using h
    · simp only [hk, if_false] at h ⊢
      exact ih h

theorem msgLookup_append_none {map : List (Msg × Nat)} {m : Msg}
    (h : msgLookup map m = none) (k : Msg) (v : Nat) :
    msgLookup (map ++ [(k, v)]) m = if k = m then some v else none := by
  induction map with
  | nil => simp [msgLookup]
  | cons hd tl ih =>
    obtain ⟨k0, w0⟩ := hd
    simp only [msgLookup, List.cons_append] at h ⊢
    by_cases hk : k0 = m
    · simp [hk] at h
    · simp only [hk, if_false] at h ⊢
      exact ih h

theorem dedupStep_ok_cases {st st2 : DedupState} {sig : Bytes} {msg : Msg}
    {pk : blstPublicKey} (h : dedupStep st sig msg pk = .ok st2) :
    (st2 = st ∧ (msgLookup st.msgMap msg).isSome) ∨
    (st2.newSigs = st.newSigs ++ [sig] ∧ st2.newMsgs = st.newMsgs ++ [msg] ∧
     st2.newPubKeys = st.newPubKeys ++ [pk] ∧
     (st2.msgMap = st.msgMap ∨
      (msgLookup st.msgMap msg = none ∧
       st2.msgMap = st.msgMap ++ [(msg, st.newPubKeys.length)]))) := by
  simp only [dedupStep] at h
  split at h
  · rename_i indx heq
    split at h
    · exact Except.noConfusion h
    · split at h
      · exact Or.inl ⟨(Except.ok.inj h).symm, by simp [heq]⟩
      · refine Or.inr ?_
        rw [← Except.ok.inj h]
        exact ⟨rfl, rfl, rfl, Or.inl rfl⟩
  · rename_i heq
    refine Or.inr ?_
    rw [← Except.ok.inj h]
    exact ⟨rfl, rfl, rfl, Or.inr ⟨heq, rfl⟩⟩

theorem dedupStep_preserves_slot {st st2 : DedupState} {sig : Bytes}
    {msg m0 : Msg} {pk : blstPublicKey} {indx : Nat}
    (hstep : dedupStep st sig msg pk = .ok st2)
    (hl : msgLookup st.msgMap m0 = some indx)
    (hip : indx < st.newPubKeys.length) (his : indx < st.newSigs.length) :
    msgLookup st2.msgMap m0 = some indx ∧
    indx < st2.newPubKeys.length ∧ indx < st2.newSigs.length ∧
    st2.newPubKeys.getD indx 0 = st.newPubKeys.getD indx 0 ∧
    st2.newSigs.getD indx [] = st.newSigs.getD indx [] := by
  rcases dedupStep_ok_cases hstep with ⟨h, _⟩ | ⟨hs, hm, hp, hmap⟩
  · subst h
    exact ⟨hl, hip, his, rfl, rfl⟩
  · have hmap2 : msgLookup st2.msgMap m0 = some indx := by
      rcases hmap with h | ⟨_, h⟩
      · rw [h]; exact hl
      · rw [h]; exact msgLookup_append_some _ hl
    refine ⟨hmap2, ?_, ?_, ?_, ?_⟩
    · rw [hp, List.length_append]; omega
    · rw [hs, List.length_append]; omega
    · rw [hp]; exact List.getD_append _ _ _ _ hip
    · rw [hs]; exact List.getD_append _ _ _ _ his

theorem dedupStep_preserves_none {st st2 : DedupState} {sig : Bytes}
    {msg m0 : Msg} {pk : blstPublicKey}
    (hstep : dedupStep st sig msg pk = .ok st2)
    (hn : msgLookup st.msgMap m0 = none) (hne : msg ≠ m0) :
    msgLookup st2.msgMap m0 = none := by
  rcases dedupStep_ok_cases hstep with ⟨h, _⟩ | ⟨_, _, _, hmap⟩
  · subst h; exact hn
  · rcases hmap with h | ⟨_, h⟩
    · rw [h]; exact hn
    · rw [h, msgLookup_append_none hn msg st.newPubKeys.length]
      simp [hne]

theorem dedupStep_conflict {st : DedupState} {sig : Bytes} {m : Msg}
    {pk : blstPublicKey} {indx : Nat}
    (hl : msgLookup st.msgMap m = some indx)
    (hconf : (st.newPubKeys.getD indx 0 = pk ∧ st.newSigs.getD indx [] ≠ sig) ∨
             (st.newPubKeys.getD indx 0 ≠ pk ∧ st.newSigs.getD indx [] = sig)) :
    dedupStep st sig m pk = .error .conflictingDuplicate := by
  have hc1 : ((decide (st.newPubKeys.getD indx 0 = pk) &&
      !decide (st.newSigs.getD indx [] = sig)) ||
      (!decide (st.newPubKeys.getD indx 0 = pk) &&
      decide (st.newSigs.getD indx [] = sig))) = true := by
    rcases hconf with ⟨h1, h2⟩ | ⟨h1, h2⟩
    · rw [decide_eq_true h1, decide_eq_false h2]; rfl
    · rw [decide_eq_false h1, decide_eq_true h2]; rfl
  simp only [dedupStep, hl]
  rw [hc1]
  simp

theorem dedupRun_conflict_later
    (l1 l2 : List (Bytes × Msg × blstPublicKey)) (st : DedupState)
    (indx : Nat) (m : Msg) (sig : Bytes) (pk : blstPublicKey)
    (hl : msgLookup st.msgMap m = some indx)
    (hip : indx < st.newPubKeys.length) (his : indx < st.newSigs.length)
    (hconf : (st.newPubKeys.getD indx 0 = pk ∧ st.newSigs.getD indx [] ≠ sig) ∨
             (st.newPubKeys.getD indx 0 ≠ pk ∧ st.newSigs.getD indx [] = sig)) :
    dedupRun st (l1 ++ (sig, m, pk) :: l2) = .error .conflictingDuplicate := by
  induction l1 generalizing st with
  | nil =>
    rw [List.nil_append]
    simp only [dedupRun, dedupStep_conflict hl hconf]
  | cons hd tl ih =>
    obtain ⟨sg0, m0, pk0⟩ := hd
    rw [List.cons_append]
    simp only [dedupRun]
    cases hs : dedupStep st sg0 m0 pk0 with
    | error e =>
      have he := dedupStep_error_eq hs
      subst he
      rfl
    | ok st2 =>
      obtain ⟨hl2, hip2, his2, hpk2, hsg2⟩ := dedupStep_preserves_slot hs hl hip his
      exact ih st2 hl2 hip2 his2 (by rw [hpk2, hsg2]; exact hconf)

theorem dedupRun_conflict_first
    (l1 mid l2 : List (Bytes × Msg × blstPublicKey)) (st : DedupState)
    (m : Msg) (sigJ sigI : Bytes) (pkJ pkI : blstPublicKey)
    (hnone : msgLookup st.msgMap m = none)
    (hlen : st.newSigs.length = st.newPubKeys.length)
    (hfirst : ∀ e ∈ l1, e.2.1 ≠ m)
    (hconf : (pkJ = pkI ∧ sigJ ≠ sigI) ∨ (pkJ ≠ pkI ∧ sigJ = sigI)) :
    dedupRun st (l1 ++ (sigJ, m, pkJ) :: (mid ++ (sigI, m, pkI) :: l2)) =
      .error .conflictingDuplicate := by
  induction l1 generalizing st with
  | nil =>
    rw [List.nil_append]
    simp only [dedupRun, dedupStep, hnone]
    have hgl : msgLookup (st.msgMap ++ [(m, st.newPubKeys.length)]) m =
        some st.newPubKeys.length := by
      rw [msgLookup_append_none hnone m st.newPubKeys.length]
      simp
    have hgp : (st.newPubKeys ++ [pkJ]).getD st.newPubKeys.length 0 = pkJ := by
      rw [List.getD_append_right] <;> simp
    have hgs : (st.newSigs ++ [sigJ]).getD st.newPubKeys.length [] = sigJ := by
      rw [← hlen, List.getD_append_right] <;> simp
    refine dedupRun_conflict_later mid l2 _ st.newPubKeys.length m sigI pkI hgl ?_ ?_ ?_
    · simp only [List.length_append, List.length_singleton]; omega
    · simp only [List.length_append, List.length_singleton]; omega
    · rw [hgp, hgs]
      exact hconf
  | cons hd tl ih =>
    obtain ⟨sg0, m0, pk0⟩ := hd
    rw [List.cons_append]
    simp only [dedupRun]
    cases hs : dedupStep st sg0 m0 pk0 with
    | error e =>
      have he := dedupStep_error_eq hs
      subst he
      rfl
    | ok st2 =>
      have hm0 : m0 ≠ m := by
        have := hfirst (sg0, m0, pk0) (by simp)
        simpa using this
      have hnone2 := dedupStep_preserves_none hs hnone hm0
      have hlen2 : st2.newSigs.length = st2.newPubKeys.length := by
        rcases dedupStep_ok_cases hs with ⟨h, _⟩ | ⟨hs1, _, hp1, _⟩
        · subst h; exact hlen
        · rw [hs1, hp1]; simp [hlen]
      exact ih st2 hnone2 hlen2 (fun e he => hfirst e (List.mem_cons_of_mem _ he))

/-! ## zip3 lemmas -/

theorem zip3_append {α β γ : Type} (a1 : List α) :
    ∀ (b1 : List β) (c1 : List γ) (a2 : List α) (b2 : List β) (c2 : List γ),
    a1.length = b1.length → a1.length = c1.length →
    zip3 (a1 ++ a2) (b1 ++ b2) (c1 ++ c2) = zip3 a1 b1 c1 ++ zip3 a2 b2 c2 := by
  induction a1 with
  | nil =>
    intro b1 c1 a2 b2 c2 h1 h2
    cases b1 with
    | nil =>
      cases c1 with
      | nil => simp [zip3]
      | cons _ _ => simp at h2
    | cons _ _ => simp at h1
  | cons x ta ih =>
    intro b1 c1 a2 b2 c2 h1 h2
    cases b1 with
    | nil => simp at h1
    | cons y tb =>
      cases c1 with
      | nil => simp at h2
      | cons z tc =>
        simp only [List.cons_append, zip3]
        exact congrArg (List.cons (x, y, z))
          (ih tb tc a2 b2 c2 (by simpa using h1) (by simpa using h2))

theorem zip3_mem_middle {α β γ : Type} {e : α × β × γ} (a : List α) :
    ∀ (b : List β) (c : List γ), e ∈ zip3 a b c → e.2.1 ∈ b := by
  induction a with
  | nil =>
    intro b c h
    cases b <;> cases c <;> simp [zip3] at h
  | cons x ta ih =>
    intro b c h
    cases b with
    | nil => cases c <;> simp [zip3] at h
    | cons y tb =>
      cases c with
      | nil => simp [zip3] at h
      | cons z tc =>
        simp only [zip3, List.mem_cons] at h
        rcases h with h | h
        · subst h; simp
        · exact List.mem_cons_of_mem _ (ih tb tc h)

theorem zip3_map_msg {α β γ : Type} (a : List α) :
    ∀ (b : List β) (c : List γ), a.length = b.length → a.length = c.length →
    (zip3 a b c).map (fun e => e.2.1) = b := by
  induction a with
  | nil =>
    intro b c h1 h2
    cases b with
    | nil => simp [zip3]
    | cons _ _ => simp at h1
  | cons x ta ih =>
    intro b c h1 h2
    cases b with
    | nil => simp at h1
    | cons y tb =>
      cases c with
      | nil => simp at h2
      | cons z tc =>
        simp only [zip3, List.map_cons]
        rw [ih tb tc (by simpa using h1) (by simpa using h2)]

/-- C2 (amended): the batch-wide conflict check only compares a repeated
message's entry against the FIRST entry recorded for that message.  If the
batch contains an entry `(sigI, m, pkI)` whose message `m` first occurred at an
earlier entry `(sigJ, m, pkJ)` (no occurrence of `m` before it), and exactly
one of the public key / signature matches that first entry while the other
differs, then the whole batch is rejected: `VerifyMultipleSignatures` returns
`(false, ConflictingDuplicateError)` and no verification result is produced. -/
theorem verifyMultipleSignatures_conflict_with_first_entry
    (u : List Bytes → List blstSignature)
    (f : List blstSignature → List blstPublicKey → List Msg → Bool)
    (sA sB sC : List Bytes) (mA mB mC : List Msg)
    (pA pB pC : List blstPublicKey)
    (sigJ sigI : Bytes) (m : Msg) (pkJ pkI : blstPublicKey)
    (h1 : sA.length = mA.length) (h2 : sA.length = pA.length)
    (h3 : sB.length = mB.length) (h4 : sB.length = pB.length)
    (h5 : sC.length = mC.length) (h6 : sC.length = pC.length)
    (hfirst : m ∉ mA)
    (hconf : (pkJ = pkI ∧ sigJ ≠ sigI) ∨ (pkJ ≠ pkI ∧ sigJ = sigI)) :
    VerifyMultipleSignatures false u f
      (sA ++ sigJ :: (sB ++ sigI :: sC))
      (mA ++ m :: (mB ++ m :: mC))
      (pA ++ pkJ :: (pB ++ pkI :: pC)) =
      (false, some .conflictingDuplicate) := by
  have hz : zip3 (sA ++ sigJ :: (sB ++ sigI :: sC)) (mA ++ m :: (mB ++ m :: mC))
      (pA ++ pkJ :: (pB ++ pkI :: pC)) =
      zip3 sA mA pA ++ (sigJ, m, pkJ) ::
        (zip3 sB mB pB ++ (sigI, m, pkI) :: zip3 sC mC pC) := by
    rw [zip3_append sA mA pA _ _ _ h1 h2]
    simp only [zip3]
    rw [zip3_append sB mB pB _ _ _ h3 h4]
    simp only [zip3]
  have hfirstz : ∀ e ∈ zip3 sA mA pA, e.2.1 ≠ m :=
    fun e he heq => hfirst (heq ▸ zip3_mem_middle sA mA pA he)
  have hd := dedupRun_conflict_first (zip3 sA mA pA) (zip3 sB mB pB)
    (zip3 sC mC pC) ⟨[], [], [], []⟩ m sigJ sigI pkJ pkI rfl rfl hfirstz hconf
  have hrm : removeDuplicates (sA ++ sigJ :: (sB ++ sigI :: sC))
      (mA ++ m :: (mB ++ m :: mC)) (pA ++ pkJ :: (pB ++ pkI :: pC)) =
      .error .conflictingDuplicate := by
    unfold removeDuplicates
    rw [hz, hd]
  have hci : coalescedInput u (sA ++ sigJ :: (sB ++ sigI :: sC))
      (mA ++ m :: (mB ++ m :: mC)) (pA ++ pkJ :: (pB ++ pkI :: pC)) =
      .error .conflictingDuplicate := by
    unfold coalescedInput
    rw [hrm]
  have hs_ne : (sA ++ sigJ :: (sB ++ sigI :: sC)) ≠ [] := by simp
  have hp_ne : (pA ++ pkJ :: (pB ++ pkI :: pC)) ≠ [] := by simp
  have hguard : ¬((sA ++ sigJ :: (sB ++ sigI :: sC)).length ≠
        (pA ++ pkJ :: (pB ++ pkI :: pC)).length ∨
      (sA ++ sigJ :: (sB ++ sigI :: sC)).length ≠
        (mA ++ m :: (mB ++ m :: mC)).length) := by
    push_neg
    simp only [List.length_append, List.length_cons]
    omega
  simp [VerifyMultipleSignatures, hs_ne, hp_ne, hguard, hci]
  omega

theorem verifyMultipleSignatures_conflict_first_witness :
    VerifyMultipleSignatures false buAtom mavTrue [[1], [2]] [[0], [0]]
      [{1}, {1}] = (false, some .conflictingDuplicate) :=
  verifyMultipleSignatures_conflict_with_first_entry buAtom mavTrue
    [] [] [] [] [] [] [] [] [] [1] [2] [0] {1} {1}
    rfl rfl rfl rfl rfl rfl (by decide) (Or.inl ⟨rfl, by decide⟩)

/-- C5 (amended): an entry whose public key and signature both match the slot
the dedup pass compares against — the FIRST entry recorded for that message —
is dropped (the accumulator is unchanged, so no pairing term is created); in
particular, submitting one identical (pubkey, signature, message) triple twice
as the batch yields exactly the same result (boolean and error) as submitting
it once, for every decoder and pairing check. -/
theorem duplicate_triple_dropped_against_first_slot
    (st : DedupState) (sig : Bytes) (m : Msg) (pk : blstPublicKey) (indx : Nat)
    (hl : msgLookup st.msgMap m = some indx)
    (hpk : st.newPubKeys.getD indx 0 = pk)
    (hsg : st.newSigs.getD indx [] = sig) :
    dedupStep st sig m pk = .ok st ∧
    ∀ (u : List Bytes → List blstSignature)
      (f : List blstSignature → List blstPublicKey → List Msg → Bool)
      (s2 : Bytes) (m2 : Msg) (p2 : blstPublicKey),
      VerifyMultipleSignatures false u f [s2, s2] [m2, m2] [p2, p2] =
        VerifyMultipleSignatures false u f [s2] [m2] [p2] := by
  constructor
  · have hc1 : ((decide (st.newPubKeys.getD indx 0 = pk) &&
        !decide (st.newSigs.getD indx [] = sig)) ||
        (!decide (st.newPubKeys.getD indx 0 = pk) &&
        decide (st.newSigs.getD indx [] = sig))) = false := by
      rw [decide_eq_true hpk, decide_eq_true hsg]; rfl
    have hc2 : (decide (st.newPubKeys.getD indx 0 = pk) &&
        decide (st.newSigs.getD indx [] = sig)) = true := by
      rw [decide_eq_true hpk, decide_eq_true hsg]; rfl
    simp only [dedupStep, hl]
    rw [hc1, hc2]
    simp
  · intro u f s2 m2 p2
    simp [VerifyMultipleSignatures, coalescedInput, removeDuplicates, zip3,
      dedupRun, dedupStep, msgLookup, List.getD]

theorem duplicate_triple_dropped_witness :
    dedupStep ⟨[[5]], [[7]], [{3}], [([7], 0)]⟩ [5] [7] {3} =
      .ok ⟨[[5]], [[7]], [{3}], [([7], 0)]⟩ ∧
    VerifyMultipleSignatures false buAtom mavTrue [[1], [1]] [[2], [2]]
      [{1}, {1}] = VerifyMultipleSignatures false buAtom mavTrue [[1]] [[2]] [{1}] :=
  ⟨(duplicate_triple_dropped_against_first_slot ⟨[[5]], [[7]], [{3}], [([7], 0)]⟩
      [5] [7] {3} 0 (by decide) (by decide) (by decide)).1,
   (duplicate_triple_dropped_against_first_slot ⟨[[5]], [[7]], [{3}], [([7], 0)]⟩
      [5] [7] {3} 0 (by decide) (by decide) (by decide)).2 buAtom mavTrue
      [1] [2] {1}⟩

/-! ## Lemmas for the coalescing loop -/

theorem union_insert_absorb {A X : Finset Msg} {m : Msg} (hm : m ∈ A) :
    A ∪ X = A ∪ insert m X := by
  rw [Finset.union_insert]
  exact (Finset.insert_eq_self.mpr (Finset.mem_union_left _ hm)).symm

theorem union_singleton_assoc {A X : Finset Msg} {m : Msg} :
    (A ∪ {m}) ∪ X = A ∪ insert m X := by
  rw [Finset.union_assoc, ← Finset.insert_eq]

theorem coalesceStep_lookup_some (st : CoalesceState) (s : blstSignature)
    (m : Msg) (p : blstPublicKey) (indx : Nat)
    (h : msgLookup st.msgMap m = some indx) :
    (coalesceStep st s m p).rawMsgs = st.rawMsgs ∧
    (coalesceStep st s m p).msgMap = st.msgMap ∧
    (coalesceStep st s m p).mulP1Aff.length = st.mulP1Aff.length ∧
    (coalesceStep st s m p).mulP2Aff.length = st.mulP2Aff.length := by
  simp only [coalesceStep, h]
  split
  · exact ⟨rfl, rfl, rfl, rfl⟩
  · exact ⟨rfl, rfl, by simp, by simp⟩

theorem coalesceStep_lookup_none (st : CoalesceState) (s : blstSignature)
    (m : Msg) (p : blstPublicKey) (h : msgLookup st.msgMap m = none) :
    coalesceStep st s m p = ⟨st.mulP1Aff ++ [p], st.mulP2Aff ++ [s],
      st.rawMsgs ++ [m], st.msgMap ++ [(m, st.mulP1Aff.length)]⟩ := by
  simp only [coalesceStep, h]

theorem coalesceRun_inv (l : List (blstSignature × Msg × blstPublicKey)) :
    ∀ st : CoalesceState,
    st.mulP1Aff.length = st.rawMsgs.length →
    st.mulP2Aff.length = st.rawMsgs.length →
    st.rawMsgs.Nodup →
    (∀ m0 : Msg, (msgLookup st.msgMap m0).isSome ↔ m0 ∈ st.rawMsgs) →
    (coalesceRun st l).mulP1Aff.length = (coalesceRun st l).rawMsgs.length ∧
    (coalesceRun st l).mulP2Aff.length = (coalesceRun st l).rawMsgs.length ∧
    (coalesceRun st l).rawMsgs.Nodup ∧
    (coalesceRun st l).rawMsgs.toFinset =
      st.rawMsgs.toFinset ∪ (l.map fun e => e.2.1).toFinset := by
  induction l with
  | nil =>
    intro st h1 h2 h3 _
    simpa [coalesceRun] using ⟨h1, h2, h3⟩
  | cons hd tl ih =>
    intro st h1 h2 h3 h4
    obtain ⟨s, m, p⟩ := hd
    simp only [coalesceRun]
    cases hm : msgLookup st.msgMap m with
    | some indx =>
      obtain ⟨hr, hmap, hl1, hl2⟩ := coalesceStep_lookup_some st s m p indx hm
      have h4m : ∀ m0 : Msg, (msgLookup (coalesceStep st s m p).msgMap m0).isSome ↔
          m0 ∈ (coalesceStep st s m p).rawMsgs := by
        intro m0
        rw [hmap, hr]
        exact h4 m0
      obtain ⟨g1, g2, g3, g4⟩ := ih (coalesceStep st s m p)
        (by rw [hl1, hr]; exact h1) (by rw [hl2, hr]; exact h2)
        (by rw [hr]; exact h3) h4m
      refine ⟨g1, g2, g3, ?_⟩
      rw [g4, hr]
      have hmem : m ∈ st.rawMsgs := (h4 m).mp (by simp [hm])
      simp only [List.map_cons, List.toFinset_cons]
      exact union_insert_absorb (List.mem_toFinset.mpr hmem)
    | none =>
      rw [coalesceStep_lookup_none st s m p hm]
      have hnot : m ∉ st.rawMsgs := fun hmem => by
        have hx := (h4 m).mpr hmem
        rw [hm] at hx
        simp at hx
      obtain ⟨g1, g2, g3, g4⟩ := ih ⟨st.mulP1Aff ++ [p], st.mulP2Aff ++ [s],
          st.rawMsgs ++ [m], st.msgMap ++ [(m, st.mulP1Aff.length)]⟩
        (by simp [h1]) (by simp [h2])
        (by
          rw [List.nodup_append]
          refine ⟨h3, by simp, ?_⟩
          intro a ha hb
          simp only [List.mem_singleton] at hb
          subst hb
          exact hnot ha)
        (by
          intro m0
          cases hs0 : msgLookup st.msgMap m0 with
          | some v =>
            constructor
            · intro _
              exact List.mem_append_left _ ((h4 m0).mp (by simp [hs0]))
            · intro _
              simp [msgLookup_append_some _ hs0]
          | none =>
            have hm0 : m0 ∉ st.rawMsgs := fun hmem => by
              have hx := (h4 m0).mpr hmem
              rw [hs0] at hx
              simp at hx
            show (msgLookup (st.msgMap ++ [(m, st.mulP1Aff.length)]) m0).isSome ↔
              m0 ∈ st.rawMsgs ++ [m]
            rw [msgLookup_append_none hs0 m st.mulP1Aff.length]
            by_cases he : m = m0
            · subst he
              simp
            · have he2 : m0 ≠ m := fun hh => he hh.symm
              simp [he, hm0, he2])
      refine ⟨g1, g2, g3, ?_⟩
      rw [g4]
      show (st.rawMsgs ++ [m]).toFinset ∪ _ = _
      rw [List.toFinset_append]
      simp only [List.map_cons, List.toFinset_cons, List.toFinset_nil,
        insert_emptyc_eq]
      exact union_singleton_assoc

theorem dedupRun_msgs_facts (l : List (Bytes × Msg × blstPublicKey)) :
    ∀ st st2 : DedupState, dedupRun st l = .ok st2 →
    (∀ m0 : Msg, (msgLookup st.msgMap m0).isSome → m0 ∈ st.newMsgs) →
    st.newSigs.length = st.newMsgs.length →
    st.newPubKeys.length = st.newMsgs.length →
    ((∀ m0 : Msg, (msgLookup st2.msgMap m0).isSome → m0 ∈ st2.newMsgs) ∧
     st2.newSigs.length = st2.newMsgs.length ∧
     st2.newPubKeys.length = st2.newMsgs.length ∧
     st2.newMsgs.toFinset =
       st.newMsgs.toFinset ∪ (l.map fun e => e.2.1).toFinset) := by
  induction l with
  | nil =>
    intro st st2 h hdom h1 h2
    simp only [dedupRun] at h
    obtain rfl := Except.ok.inj h
    simpa using ⟨hdom, h1, h2⟩
  | cons hd tl ih =>
    intro st st2 h hdom h1 h2
    obtain ⟨sig, m, pk⟩ := hd
    simp only [dedupRun] at h
    cases hs : dedupStep st sig m pk with
    | error e =>
      rw [hs] at h
      exact Except.noConfusion h
    | ok stm =>
      rw [hs] at h
      simp only [] at h
      rcases dedupStep_ok_cases hs with ⟨heq, hsome⟩ | ⟨ha, hb, hc, hmap⟩
      · rw [heq] at h
        have hmem : m ∈ st.newMsgs := hdom m hsome
        obtain ⟨g1, g2, g3, g4⟩ := ih st st2 h hdom h1 h2
        refine ⟨g1, g2, g3, ?_⟩
        rw [g4]
        simp only [List.map_cons, List.toFinset_cons]
        exact union_insert_absorb (List.mem_toFinset.mpr hmem)
      · have hdom2 : ∀ m0 : Msg, (msgLookup stm.msgMap m0).isSome →
            m0 ∈ stm.newMsgs := by
          intro m0 hm0
          rcases hmap with hmm | ⟨hnone, hmm⟩
          · rw [hb]
            exact List.mem_append_left _ (hdom m0 (by rwa [hmm] at hm0))
          · rw [hb]
            rw [hmm] at hm0
            by_cases hcase : msgLookup st.msgMap m0 = none
            · rw [msgLookup_append_none hcase m st.newPubKeys.length] at hm0
              by_cases hme : m = m0
              · subst hme
                exact List.mem_append_right _ (by simp)
              · rw [if_neg hme] at hm0
                simp at hm0
            · exact List.mem_append_left _
                (hdom m0 (Option.isSome_iff_ne_none.mpr hcase))
        have h1m : stm.newSigs.length = stm.newMsgs.length := by
          rw [ha, hb]
          simp [h1]
        have h2m : stm.newPubKeys.length = stm.newMsgs.length := by
          rw [hc, hb]
          simp [h2]
        obtain ⟨g1, g2, g3, g4⟩ := ih stm st2 h hdom2 h1m h2m
        refine ⟨g1, g2, g3, ?_⟩
        rw [g4, hb, List.toFinset_append]
        simp only [List.map_cons, List.toFinset_cons, List.toFinset_nil,
          insert_emptyc_eq]
        exact union_singleton_assoc

theorem removeDuplicates_facts (sigs : List Bytes) (msgs : List Msg)
    (pubKeys : List blstPublicKey) (sigs2 : List Bytes) (msgs2 : List Msg)
    (pubKeys2 : List blstPublicKey)
    (hsm : sigs.length = msgs.length) (hsp : sigs.length = pubKeys.length)
    (h : removeDuplicates sigs msgs pubKeys = .ok (sigs2, msgs2, pubKeys2)) :
    sigs2.length = msgs2.length ∧ pubKeys2.length = msgs2.length ∧
    msgs2.toFinset = msgs.toFinset := by
  simp only [removeDuplicates] at h
  cases hr : dedupRun ⟨[], [], [], []⟩ (zip3 sigs msgs pubKeys) with
  | error e =>
    rw [hr] at h
    exact Except.noConfusion h
  | ok st =>
    rw [hr] at h
    simp only [] at h
    have h3 := Except.ok.inj h
    rw [Prod.mk.injEq, Prod.mk.injEq] at h3
    obtain ⟨e1, e2, e3⟩ := h3
    obtain ⟨g1, g2, g3, g4⟩ := dedupRun_msgs_facts (zip3 sigs msgs pubKeys)
      ⟨[], [], [], []⟩ st hr (by intro m0 hm0; simp [msgLookup] at hm0) rfl rfl
    rw [← e1, ← e2, ← e3]
    refine ⟨g2, g3, ?_⟩
    rw [g4]
    rw [zip3_map_msg sigs msgs pubKeys hsm hsp]
    simp

/-- C4 counterexample: when the batch holds an undecodable signature,
`BatchUncompress` returns the nil slice, the recomputed `length` is 0, the
coalescing loop runs zero times, and zero pairing terms are passed to the
multi-pairing check although the input has one distinct message — so the
number of pairing terms does not equal the number of distinct input
messages. -/
theorem pairing_terms_lost_on_decode_failure :
    coalescedInput buNil [[1]] [[0]] [{1}] = .ok ⟨[], [], [], []⟩ ∧
    ([[0]] : List Msg).toFinset.card = 1 :=
  ⟨by decide, by decide⟩

/-- C4 (amended): with equal-length inputs, and provided the batch
uncompression succeeds — `BatchUncompress` returns one decoded point per
signature, its success contract (on failure it returns nil, the loop runs
zero times, and zero pairing terms are passed) — whenever
`VerifyMultipleSignatures` reaches the multi-pairing call, the coalesced
state it passes has pairwise-distinct messages whose set is exactly the set
of distinct input messages — so the number of pairing terms equals the number
of distinct messages, each distinct message in exactly one term, and the
key/signature columns have exactly that many entries; moreover a
repeated-message entry that differs from its message's slot is aggregated
into that slot (same `rawMsgs`, both columns updated at the slot's index by
group addition) rather than added as a new pairing term. -/
theorem verifyMultipleSignatures_pairing_terms
    (bu : List Bytes → List blstSignature) (sigs : List Bytes)
    (msgs : List Msg) (pubKeys : List blstPublicKey) (st : CoalesceState)
    (hsm : sigs.length = msgs.length) (hsp : sigs.length = pubKeys.length)
    (hdecode : ∀ bs : List Bytes, (bu bs).length = bs.length)
    (h : coalescedInput bu sigs msgs pubKeys = .ok st) :
    st.rawMsgs.Nodup ∧
    st.rawMsgs.toFinset = msgs.toFinset ∧
    st.rawMsgs.length = msgs.toFinset.card ∧
    st.mulP1Aff.length = st.rawMsgs.length ∧
    st.mulP2Aff.length = st.rawMsgs.length ∧
    (∀ m0 ∈ msgs, @List.count Msg instBEqOfDecidableEq m0 st.rawMsgs = 1) ∧
    (∀ (st2 : CoalesceState) (s : blstSignature) (m : Msg) (p : blstPublicKey)
      (indx : Nat), msgLookup st2.msgMap m = some indx →
      (st2.mulP1Aff.getD indx 0 ≠ p ∨ st2.mulP2Aff.getD indx 0 ≠ s) →
      (coalesceStep st2 s m p).rawMsgs = st2.rawMsgs ∧
      (coalesceStep st2 s m p).mulP1Aff =
        st2.mulP1Aff.set indx (st2.mulP1Aff.getD indx 0 + p) ∧
      (coalesceStep st2 s m p).mulP2Aff =
        st2.mulP2Aff.set indx (st2.mulP2Aff.getD indx 0 + s)) := by
  unfold coalescedInput at h
  cases hr : removeDuplicates sigs msgs pubKeys with
  | error e =>
    rw [hr] at h
    simp only [] at h
    exact Except.noConfusion h
  | ok tr =>
    obtain ⟨sigs2, msgs2, pubKeys2⟩ := tr
    rw [hr] at h
    simp only [] at h
    have hst := Except.ok.inj h
    obtain ⟨f1, f2, f3⟩ := removeDuplicates_facts sigs msgs pubKeys
      sigs2 msgs2 pubKeys2 hsm hsp hr
    obtain ⟨i1, i2, i3, i4⟩ := coalesceRun_inv
      (zip3 (bu sigs2) msgs2 pubKeys2) ⟨[], [], [], []⟩ rfl rfl
      List.nodup_nil (by intro m0; simp [msgLookup])
    rw [hst] at i1 i2 i3 i4
    have hmproj : (zip3 (bu sigs2) msgs2 pubKeys2).map (fun e => e.2.1) =
        msgs2 :=
      zip3_map_msg (bu sigs2) msgs2 pubKeys2 (by rw [hdecode]; exact f1)
        (by rw [hdecode]; exact f1.trans f2.symm)
    have hfin : st.rawMsgs.toFinset = msgs.toFinset := by
      rw [i4, hmproj, f3]
      simp
    refine ⟨i3, hfin, ?_, i1, i2, ?_, ?_⟩
    · rw [← hfin]
      exact (List.toFinset_card_of_nodup i3).symm
    · intro m0 hm0
      have hmem : m0 ∈ st.rawMsgs := by
        rw [← List.mem_toFinset, hfin, List.mem_toFinset]
        exact hm0
      exact List.count_eq_one_of_mem i3 hmem
    · intro st2 s m p indx hl hne
      have hcond : ¬(st2.mulP1Aff.getD indx 0 = p ∧
          st2.mulP2Aff.getD indx 0 = s) := by
        rcases hne with hne | hne
        · exact fun hc => hne hc.1
        · exact fun hc => hne hc.2
      simp only [coalesceStep, hl]
      rw [if_neg hcond]
      exact ⟨rfl, rfl, rfl⟩

theorem verifyMultipleSignatures_pairing_terms_witness :
    ([[0], [1]] : List Msg).Nodup ∧
    ([[0], [1]] : List Msg).toFinset =
      ([[0], [1], [0]] : List Msg).toFinset ∧
    ([[0], [1]] : List Msg).length =
      ([[0], [1], [0]] : List Msg).toFinset.card :=
  ⟨(verifyMultipleSignatures_pairing_terms buAtom [[1], [2], [3]]
      [[0], [1], [0]] [{1}, {2}, {3}]
      ⟨[{1, 3}, {2}], [{Sum.inr 1, Sum.inr 3}, {Sum.inr 2}], [[0], [1]],
        [([0], 0), ([1], 1)]⟩ rfl rfl
      (fun bs => by simp [buAtom]) (by decide)).1,
   (verifyMultipleSignatures_pairing_terms buAtom [[1], [2], [3]]
      [[0], [1], [0]] [{1}, {2}, {3}]
      ⟨[{1, 3}, {2}], [{Sum.inr 1, Sum.inr 3}, {Sum.inr 2}], [[0], [1]],
        [([0], 0), ([1], 1)]⟩ rfl rfl
      (fun bs => by simp [buAtom]) (by decide)).2.1,
   (verifyMultipleSignatures_pairing_terms buAtom [[1], [2], [3]]
      [[0], [1], [0]] [{1}, {2}, {3}]
      ⟨[{1, 3}, {2}], [{Sum.inr 1, Sum.inr 3}, {Sum.inr 2}], [[0], [1]],
        [([0], 0), ([1], 1)]⟩ rfl rfl
      (fun bs => by simp [buAtom]) (by decide)).2.2.1⟩
